import Mathlib

/-!
Shallow embedding of the knowledge-base index pipeline of the
`crynux-network/discord-intern` repository, together with proofs about it.

The embedded code lives in:
* `src/community_intern/kb/impl.py`   (`FileSystemKnowledgeBase`)
* `src/discord_intern/kb/impl.py`     (`FileSystemKnowledgeBase`, variant)
* `src/community_intern/ai/impl.py`   (`AIClientImpl.summarize_for_kb_index`)

Conventions of the embedding:
* Python strings are modelled as `String` or, where parsing proofs need
  structural recursion, as `List Char`.
* Python `str.strip()` is modelled by `pyStrip` over the ASCII whitespace
  characters (space, tab, newline, carriage return, vertical tab, form feed);
  the claims under study only exercise these.
* The filesystem is a partial map from canonical absolute paths (given as
  segment lists) to decoded file text; `none` models "no regular file here".
  Intermediate directories are assumed traversable, as in the scenarios the
  claims describe.
* HTTP responses, network failures and the summarization endpoint are
  external inputs, passed in as explicit data (`FetchResp`, `LlmResp`) or
  oracles (`Nat → LlmResp`, one response per attempt).
* `bytes` bodies are lists of byte values; UTF-8 decoding with
  `errors="replace"` is modelled per byte (sub-128 bytes decode to their
  character, others to U+FFFD); the claims never depend on multi-byte
  sequences.
-/

/-- ASCII whitespace recognised by Python `str.strip()` (restricted to the
characters the claims exercise). -/
def wsChar (c : Char) : Bool :=
  c = ' ' || c = '\t' || c = '\n' || c = '\r' || c = '\x0b' || c = '\x0c'

/-- Drop the longest suffix of characters satisfying `p` (right strip). -/
def dropTrail (p : Char → Bool) (l : List Char) : List Char :=
  (l.reverse.dropWhile p).reverse

/-- Python `str.strip()` on a character list. -/
def pyStrip (l : List Char) : List Char :=
  dropTrail wsChar (l.dropWhile wsChar)

/-- Python `str.strip()` on a `String`. -/
def pyStripStr (s : String) : String :=
  String.mk (pyStrip s.toList)

/-- `charsLead p l` holds when `p` is an initial run of `l`
(Python `str.startswith`). -/
def charsLead : List Char → List Char → Bool
  | [], _ => true
  | _ :: _, [] => false
  | a :: as, b :: bs => a = b && charsLead as bs

/-- Python `s.startswith(p)`. -/
def strStartsWith (s p : String) : Bool :=
  charsLead p.toList s.toList

/-- Split a character list at `/` characters, accumulating the current
segment in reverse (the semantics of `s.split("/")`), written by structural
recursion so that concrete path computations evaluate. -/
def splitSlashAux : List Char → List Char → List String
  | [], cur => [String.mk cur.reverse]
  | c :: rest, cur =>
    if c = '/' then String.mk cur.reverse :: splitSlashAux rest []
    else splitSlashAux rest (c :: cur)

/-- Path segments of a POSIX path string (empty segments included). -/
def splitSlash (s : String) : List String :=
  splitSlashAux s.toList []

/-! ## Index artifact serialization and parsing

`load_index_entries` (identical in both `community_intern/kb/impl.py` and
`discord_intern/kb/impl.py`) splits the artifact text on `"\n\n"`, takes the
first line of each chunk as `source_id` and the stripped rest as
`description`.  `build_index` renders each entry as `f"{source_id}\n{summary}"`
and joins entries with `"\n\n"`.  Both are modelled on `List Char` so the
round-trip proof can proceed by structural recursion. -/

/-- Python `text.split("\n\n")`: split on non-overlapping occurrences of two
consecutive newlines, scanning left to right. -/
def splitNN : List Char → List (List Char)
  | [] => [[]]
  | [c] => [[c]]
  | c :: d :: rest =>
    if c = '\n' ∧ d = '\n' then [] :: splitNN rest
    else
      match splitNN (d :: rest) with
      | [] => [[c]]
      | h :: t => (c :: h) :: t

/-- Python `text.split("\n")`. -/
def splitNl : List Char → List (List Char)
  | [] => [[]]
  | c :: rest =>
    if c = '\n' then [] :: splitNl rest
    else
      match splitNl rest with
      | [] => [[c]]
      | h :: t => (c :: h) :: t

/-- Python `"\n".join(parts)`. -/
def joinNl : List (List Char) → List Char
  | [] => []
  | [x] => x
  | x :: y :: xs => x ++ '\n' :: joinNl (y :: xs)

/-- Python `"\n\n".join(parts)` — the join logic of `build_index`. -/
def joinNN : List (List Char) → List Char
  | [] => []
  | [x] => x
  | x :: y :: xs => x ++ '\n' :: '\n' :: joinNN (y :: xs)

/-- Whether a character list contains two consecutive newlines (a blank-line
separator in the sense of the artifact format). -/
def hasNN : List Char → Bool
  | [] => false
  | [_] => false
  | c :: d :: rest => (c == '\n' && d == '\n') || hasNN (d :: rest)

/-- Body of the `for chunk in chunks` loop of `load_index_entries`:
`lines = chunk.strip().split("\n")`, `source_id = lines[0].strip()`,
`description = "\n".join(lines[1:]).strip()`. -/
def parseChunk (chunk : List Char) : List Char × List Char :=
  match splitNl (pyStrip chunk) with
  | [] => ([], [])
  | x :: xs => (pyStrip x, pyStrip (joinNl xs))

/-- `FileSystemKnowledgeBase.load_index_entries` applied to artifact text
(the file read is replaced by the text parameter; a missing artifact is the
empty string, per `load_index_text`). -/
def load_index_entries (text : List Char) : List (List Char × List Char) :=
  if text = [] then [] else (splitNN (pyStrip text)).map parseChunk

/-- One rendered index entry: `f"{source_id}\n{summary}"`. -/
def chunkOfEntry (e : List Char × List Char) : List Char :=
  e.1 ++ '\n' :: e.2

/-- The serialization performed by `build_index`, step 3:
entries rendered with `chunkOfEntry` and joined with a blank line. -/
def serialize_entries (es : List (List Char × List Char)) : List Char :=
  joinNN (es.map chunkOfEntry)

/-- Entries for which the round-trip law holds: identifier nonempty, free of
newlines and already stripped; description already stripped and free of
blank-line separators. -/
abbrev goodEntry (e : List Char × List Char) : Prop :=
  e.1 ≠ [] ∧ pyStrip e.1 = e.1 ∧ '\n' ∉ e.1 ∧ pyStrip e.2 = e.2 ∧ hasNN e.2 = false

/-- The serialized text of an entry list after the whole-text right strip
performed by `text.strip()` in `load_index_entries` (the left strip is a
no-op whenever the first identifier starts with a non-whitespace character). -/
def strippedJoin (es : List (List Char × List Char)) : List Char :=
  dropTrail wsChar (joinNN (es.map chunkOfEntry))

/-! ## Summarization client (`AIClientImpl.summarize_for_kb_index`)

The remote endpoint is an oracle `Nat → LlmResp` giving the response to the
`n`-th request attempt.  The loop of `_make_request` is replicated with an
explicit `remaining` counter (`remaining = max_retries + 1 - attempt`), so
the code's `attempt < max_retries` sleep guard becomes `remaining ≠ 0` after
the decrement. -/

/-- Outcome of one HTTP attempt: `resp status content` is an HTTP response
(`content` is the parsed completion text when `status = 200`, the response
body otherwise); `netErr` is an `aiohttp.ClientError` / `asyncio.TimeoutError`. -/
inductive LlmResp
  | resp (status : Nat) (content : String)
  | netErr (msg : String)

/-- Errors raised by `_make_request`. -/
inductive LlmErr
  | httpErr (status : Nat) (body : String)
  | net (msg : String)
  | maxRetriesExceeded
deriving DecidableEq

/-- Result of `_make_request`: the returned value or raised error, the number
of request attempts issued, and the backoff sleeps performed (in
milliseconds, `0.5 * 2 ** attempt` seconds each). -/
structure ReqOutcome where
  result : Except LlmErr String
  attempts : Nat
  sleepsMs : List Nat

/-- The retry loop of `_make_request`.  First argument of the recursion is
the number of loop iterations left, second the current `attempt` index,
third the current `last_error`. -/
def summarizeLoop (resp : Nat → LlmResp) : Nat → Nat → Option LlmErr → ReqOutcome
  | 0, _, lastErr =>
    ⟨Except.error (match lastErr with
      | some e => e
      | none => LlmErr.maxRetriesExceeded), 0, []⟩
  | remaining + 1, attempt, _ =>
    match resp attempt with
    | LlmResp.resp s c =>
      if s = 200 then ⟨Except.ok (pyStripStr c), 1, []⟩
      else if s = 429 ∨ (500 ≤ s ∧ s < 600) then
        let r := summarizeLoop resp remaining (attempt + 1) (some (LlmErr.httpErr s c))
        ⟨r.result, r.attempts + 1,
          if remaining = 0 then r.sleepsMs else (500 * 2 ^ attempt) :: r.sleepsMs⟩
      else ⟨Except.error (LlmErr.httpErr s c), 1, []⟩
    | LlmResp.netErr m =>
      let r := summarizeLoop resp remaining (attempt + 1) (some (LlmErr.net m))
      ⟨r.result, r.attempts + 1,
        if remaining = 0 then r.sleepsMs else (500 * 2 ^ attempt) :: r.sleepsMs⟩

/-- `AIClientImpl.summarize_for_kb_index`: blank text returns `""` with no
request; otherwise `_make_request` runs with `max_retries + 1` iterations. -/
def summarize_for_kb_index (text : String) (maxRetries : Nat) (resp : Nat → LlmResp) :
    ReqOutcome :=
  if pyStripStr text = "" then ⟨Except.ok "", 0, []⟩
  else summarizeLoop resp (maxRetries + 1) 0 none

/-! ## Remote fetcher (`FileSystemKnowledgeBase._fetch_url`, discord variant)

The cache state for one URL is `Option String` (the content of the cache
file keyed by the URL's hash, if present).  The network is one `FetchResp`. -/

/-- The network's answer to a GET: an HTTP response with status and raw byte
body, or an exception (timeout, connection error). -/
inductive FetchResp
  | ok (status : Nat) (body : List Nat)
  | exn
deriving DecidableEq

/-- Result of `_fetch_url`: returned text, cache entry for the URL afterwards,
and whether an HTTP request was issued. -/
structure FetchOut where
  text : String
  cacheAfter : Option String
  madeCall : Bool
deriving DecidableEq

/-- `content.decode("utf-8", errors="replace")`, modelled per byte. -/
def decodeReplace (bs : List Nat) : String :=
  String.mk (bs.map fun b => if b < 128 then Char.ofNat b else Char.ofNat 0xFFFD)

/-- `FileSystemKnowledgeBase._fetch_url` for one URL, as a function of the
prior cache entry, the network response and `max_source_bytes`. -/
def fetch_url (cached : Option String) (resp : FetchResp) (maxBytes : Nat) : FetchOut :=
  match cached with
  | some t => ⟨t, some t, false⟩
  | none =>
    match resp with
    | FetchResp.exn => ⟨"", none, true⟩
    | FetchResp.ok s body =>
      if s ≠ 200 then ⟨"", none, true⟩
      else if body.length > maxBytes then ⟨"", none, true⟩
      else ⟨decodeReplace body, some (decodeReplace body), true⟩

/-- Two consecutive fetches of the same URL: the second sees the cache state
left by the first. -/
def fetch_twice (cached : Option String) (r1 r2 : FetchResp) (maxBytes : Nat) :
    FetchOut × FetchOut :=
  let o1 := fetch_url cached r1 maxBytes
  (o1, fetch_url o1.cacheAfter r2 maxBytes)

/-- Total number of HTTP requests issued by a double fetch. -/
def callCount (p : FetchOut × FetchOut) : Nat :=
  (if p.1.madeCall then 1 else 0) + (if p.2.madeCall then 1 else 0)

/-! ## Index build (`FileSystemKnowledgeBase.build_index`)

Inputs: the discovered file paths (relative, as produced by `rglob` plus
`relative_to`) and URLs, both with set semantics (`dedup` then sort), a file
reader, a fetcher and the summarization client.  `summ` returning
`Except.error` models any exception from the per-source `try` block (read
error, summarization retries exhausted, fatal HTTP error): the source is
logged and skipped. -/

/-- Lexicographic string sort used for `sorted(url_sources)` (URLs are
`str`, so Python sorts them by code point). -/
def sortStrings (l : List String) : List String :=
  List.insertionSort (· ≤ ·) l

/-- Python string `<` on character lists: code-point lexicographic, written
as an executable Boolean so that concrete sorts evaluate. -/
def charsLt : List Char → List Char → Bool
  | [], [] => false
  | [], _ :: _ => true
  | _ :: _, [] => false
  | a :: as, b :: bs => if a = b then charsLt as bs else decide (a < b)

/-- Python string `<` on path segments. -/
def strSegLt (a b : String) : Bool :=
  charsLt a.toList b.toList

/-- Python tuple comparison on segment sequences: `pathlib.Path.__lt__`
compares the parts tuples element-wise, a strict prefix coming first. -/
def segsLt : List String → List String → Bool
  | [], [] => false
  | [], _ :: _ => true
  | _ :: _, [] => false
  | a :: as, b :: bs => if a = b then segsLt as bs else strSegLt a b

/-- The order `sorted(file_sources)` sorts by: `a` precedes `b` unless `b`'s
segment sequence is strictly smaller.  This is pathlib's path ordering and
differs from plain string order when a file name shares a dotted prefix with
a directory name (`a/b` sorts before `a.txt`). -/
def pathLe (a b : String) : Prop :=
  segsLt (splitSlash b) (splitSlash a) = false

instance : DecidableRel pathLe :=
  fun a b => inferInstanceAs (Decidable (segsLt (splitSlash b) (splitSlash a) = false))

/-- The sort performed on the discovered file paths. -/
def sortPaths (l : List String) : List String :=
  List.insertionSort pathLe l

/-- Rejoin path segments with `/` (the inverse of `splitSlash`, used to show
the segment view loses no information). -/
def charJoinSegs : List String → List Char
  | [] => []
  | [s] => s.toList
  | s :: t :: rest => s.toList ++ '/' :: charJoinSegs (t :: rest)

/-- The file loop of `build_index`: every file is read and summarized
(no empty-text check on this path); on success the rendered entry is
appended, on failure the file is skipped.  Returns (entries, summarize call
source_ids), each in processing order. -/
def processFiles (read : String → String) (summ : String → String → Except Unit String) :
    List String → List String × List String
  | [] => ([], [])
  | p :: rest =>
    let out := processFiles read summ rest
    match summ p (read p) with
    | Except.ok s => ((p ++ "\n" ++ s) :: out.1, p :: out.2)
    | Except.error _ => (out.1, p :: out.2)

/-- The URL loop of `build_index`: fetch, `if not text: continue`, then
summarize; entry appended on success. -/
def processUrls (fetch : String → String) (summ : String → String → Except Unit String) :
    List String → List String × List String
  | [] => ([], [])
  | u :: rest =>
    let t := fetch u
    if t = "" then processUrls fetch summ rest
    else
      let out := processUrls fetch summ rest
      match summ u t with
      | Except.ok s => ((u ++ "\n" ++ s) :: out.1, u :: out.2)
      | Except.error _ => (out.1, u :: out.2)

/-- Result of a build: the artifact text written to `index_path`, and the
sequence of summarization calls made. -/
structure BuildOut where
  artifact : String
  calls : List String
deriving DecidableEq

/-- `build_index` steps 2–3: files first, URLs second, entries joined with
blank lines into one string.  `sorted(file_sources)` sorts `Path` objects,
i.e. segment-wise (`sortPaths`); `sorted(url_sources)` sorts strings
(`sortStrings`). -/
def build_index_core (paths urls : List String) (read fetch : String → String)
    (summ : String → String → Except Unit String) : BuildOut :=
  let sf := sortPaths paths.dedup
  let su := sortStrings urls.dedup
  let f := processFiles read summ sf
  let u := processUrls fetch summ su
  ⟨String.intercalate "\n\n" (f.1 ++ u.1), f.2 ++ u.2⟩

/-! ## Source resolution (`load_source_content`, file branch)

Paths are canonicalized to absolute segment lists; `canonSegs` performs the
`.`/`..`/empty-segment folding that `Path.resolve()` and OS-level path lookup
apply.  The configured `sources_dir` is taken as an absolute POSIX path. -/

/-- Typed failure conditions of the resolver. -/
inductive LoadErr
  | outOfBounds
  | notFound
  | invalid
deriving DecidableEq

/-- The `SourceContent` dataclass. -/
structure SourceContent where
  source_id : String
  text : String
deriving DecidableEq

/-- Fold `.`/`..`/empty segments the way `Path.resolve()` and the OS do
(at the root, `..` stays at the root). -/
def canonSegs (segs : List String) : List String :=
  segs.foldl
    (fun acc seg =>
      if seg = "" ∨ seg = "." then acc
      else if seg = ".." then acc.dropLast
      else acc ++ [seg])
    []

/-- Canonical absolute segments of a POSIX path string. -/
def resolveAbs (s : String) : List String :=
  canonSegs (splitSlash s)

/-- `a` is an initial run of `b` (`Path.relative_to` succeeds). -/
def segsLead : List String → List String → Bool
  | [], _ => true
  | _ :: _, [] => false
  | a :: as, b :: bs => a = b && segsLead as bs

/-- `FileSystemKnowledgeBase._normalize_file_source_id` (community variant):
strip, backslashes to slashes, drop leading slashes, drop a redundant
`sources_dir` name once. -/
def normalize_file_source_id (sourceId sourcesDir : String) : String :=
  let raw := pyStripStr sourceId
  let normalized :=
    String.mk ((raw.toList.map fun c => if c = '\\' then '/' else c).dropWhile (fun c => c = '/'))
  let sdn := String.mk (dropTrail (fun c => c = '/') sourcesDir.toList)
  if sdn ≠ "" ∧ strStartsWith normalized (sdn ++ "/") = true then
    String.mk (normalized.toList.drop (sdn.toList.length + 1))
  else normalized

/-- Path computation of the community `load_source_content` file branch:
absolute identifiers are resolved and checked against the source root
(`relative_to` failure becomes the out-of-bounds `ValueError`); relative
identifiers are normalized and joined under `sources_dir`, the OS resolving
any `..` at access time. -/
def community_resolve_path (sourcesDir sourceId : String) : Except LoadErr (List String) :=
  let sdSegs := resolveAbs sourcesDir
  let raw := pyStripStr sourceId
  if strStartsWith raw "/" = true then
    let resolved := resolveAbs raw
    if segsLead sdSegs resolved = true then Except.ok resolved
    else Except.error LoadErr.outOfBounds
  else
    let nid := normalize_file_source_id sourceId sourcesDir
    Except.ok (canonSegs (sdSegs ++ splitSlash nid))

/-- `community_intern` `load_source_content`, file branch: resolve, then
`FileNotFoundError` when absent, `ValueError` (`invalid`) when the content is
blank, else the content. -/
def community_load_source_content (fs : List String → Option String)
    (sourcesDir sourceId : String) : Except LoadErr SourceContent :=
  match community_resolve_path sourcesDir sourceId with
  | Except.error e => Except.error e
  | Except.ok fp =>
    match fs fp with
    | none => Except.error LoadErr.notFound
    | some t =>
      if pyStripStr t = "" then Except.error LoadErr.invalid
      else Except.ok ⟨sourceId, t⟩

/-- `discord_intern` `load_source_content`, file branch: join under
`sources_dir` (an absolute identifier replaces the root, as Python `/` does),
read if the file exists, and otherwise — or on any error — return a
`SourceContent` with empty text. -/
def discord_load_source_content (fs : List String → Option String)
    (sourcesDir sourceId : String) : SourceContent :=
  let sdSegs := resolveAbs sourcesDir
  let fp :=
    if strStartsWith sourceId "/" = true then resolveAbs sourceId
    else canonSegs (sdSegs ++ splitSlash sourceId)
  match fs fp with
  | some t => ⟨sourceId, t⟩
  | none => ⟨sourceId, ""⟩

/-- Demonstration filesystem: a root with `/app/sources/notes.txt` and the
out-of-tree file `/etc/passwd`. -/
def fsDemo : List String → Option String := fun p =>
  if p = ["etc", "passwd"] then some "root:x:0:0"
  else if p = ["app", "sources", "notes.txt"] then some "notes"
  else none

/-- Decidable equality for `Except`, used to evaluate resolver results on
concrete inputs. -/
instance {e a : Type} [DecidableEq e] [DecidableEq a] : DecidableEq (Except e a)
  | Except.ok x, Except.ok y =>
    if h : x = y then isTrue (by rw [h]) else isFalse (by intro hc; cases hc; exact h rfl)
  | Except.error x, Except.error y =>
    if h : x = y then isTrue (by rw [h]) else isFalse (by intro hc; cases hc; exact h rfl)
  | Except.ok _, Except.error _ => isFalse (by intro hc; cases hc)
  | Except.error _, Except.ok _ => isFalse (by intro hc; cases hc)

/-! ## Theorems -/

/-- C1.  The out-of-bounds guard of `load_source_content` sits only on the
absolute-path branch, so the relative traversal identifier
`"../../etc/passwd"` is joined under the source root, resolves to
`/etc/passwd`, and its content is read and returned by both variants — no
`OutOfBounds`-type error is raised, contradicting the specified sandbox
property. -/
theorem relative_traversal_reads_outside_root :
    community_load_source_content fsDemo "/app/sources" "../../etc/passwd"
        = Except.ok ⟨"../../etc/passwd", "root:x:0:0"⟩
    ∧ discord_load_source_content fsDemo "/app/sources" "../../etc/passwd"
        = ⟨"../../etc/passwd", "root:x:0:0"⟩ :=
  ⟨by decide, by decide⟩

/-- One-step unfolding of the retry loop at a transient (429/5xx) response. -/
theorem summarizeLoop_transient_step (resp : Nat → LlmResp) (k attempt : Nat)
    (lastErr : Option LlmErr) (s : Nat) (c : String)
    (hr : resp attempt = LlmResp.resp s c) (h200 : s ≠ 200)
    (htr : s = 429 ∨ (500 ≤ s ∧ s < 600)) :
    summarizeLoop resp (k + 1) attempt lastErr =
      ⟨(summarizeLoop resp k (attempt + 1) (some (LlmErr.httpErr s c))).result,
       (summarizeLoop resp k (attempt + 1) (some (LlmErr.httpErr s c))).attempts + 1,
       if k = 0 then (summarizeLoop resp k (attempt + 1) (some (LlmErr.httpErr s c))).sleepsMs
       else 500 * 2 ^ attempt ::
         (summarizeLoop resp k (attempt + 1) (some (LlmErr.httpErr s c))).sleepsMs⟩ := by
  simp only [summarizeLoop, hr]
  rw [if_neg h200, if_pos htr]

/-- All-503 behaviour of the retry loop: with `k + 1` iterations left the
loop issues `k + 1` further attempts and ends with the error of the last
attempt. -/
theorem summarizeLoop_all_503 (resp : Nat → LlmResp) (body : Nat → String)
    (hresp : ∀ n, resp n = LlmResp.resp 503 (body n)) :
    ∀ k attempt lastErr,
      (summarizeLoop resp (k + 1) attempt lastErr).result
          = Except.error (LlmErr.httpErr 503 (body (attempt + k)))
      ∧ (summarizeLoop resp (k + 1) attempt lastErr).attempts = k + 1 := by
  intro k
  induction k with
  | zero =>
    intro attempt lastErr
    rw [summarizeLoop_transient_step resp 0 attempt lastErr 503 (body attempt)
      (hresp attempt) (by omega) (by omega)]
    simp [summarizeLoop]
  | succ k ih =>
    intro attempt lastErr
    have h := ih (attempt + 1) (some (LlmErr.httpErr 503 (body attempt)))
    rw [summarizeLoop_transient_step resp (k + 1) attempt lastErr 503 (body attempt)
      (hresp attempt) (by omega) (by omega)]
    refine ⟨?_, ?_⟩
    · show (summarizeLoop resp (k + 1) (attempt + 1) _).result = _
      rw [show attempt + (k + 1) = attempt + 1 + k from by omega]
      exact h.1
    · show (summarizeLoop resp (k + 1) (attempt + 1) _).attempts + 1 = _
      rw [h.2]

/-- C3 (amended).  For text that is non-empty after stripping whitespace, a
summarization endpoint answering HTTP 503 on every attempt makes exactly
`max_retries + 1` request attempts, and the call fails with the error
recorded on the last attempt. -/
theorem retry_bound_all_503 (text : String) (maxRetries : Nat) (body : Nat → String)
    (resp : Nat → LlmResp) (h1 : pyStripStr text ≠ "")
    (h2 : ∀ n, resp n = LlmResp.resp 503 (body n)) :
    (summarize_for_kb_index text maxRetries resp).attempts = maxRetries + 1
    ∧ (summarize_for_kb_index text maxRetries resp).result
        = Except.error (LlmErr.httpErr 503 (body maxRetries)) := by
  have h := summarizeLoop_all_503 resp body h2 maxRetries 0 none
  unfold summarize_for_kb_index
  rw [if_neg h1]
  refine ⟨h.2, ?_⟩
  rw [h.1]
  rw [Nat.zero_add]

/-- Witness for C3 at `max_retries = 1` and a concrete all-503 endpoint. -/
theorem retry_bound_all_503_witness :
    (summarize_for_kb_index "x" 1 (fun _ => LlmResp.resp 503 "b")).attempts = 1 + 1
    ∧ (summarize_for_kb_index "x" 1 (fun _ => LlmResp.resp 503 "b")).result
        = Except.error (LlmErr.httpErr 503 "b") :=
  retry_bound_all_503 "x" 1 (fun _ => "b") (fun _ => LlmResp.resp 503 "b")
    (by decide) (fun _ => rfl)

/-- C3 counterexample.  `" "` is a non-empty text input, yet with an all-503
endpoint and `max_retries = 2` the call makes 0 attempts (the blank-text
short-circuit) instead of the claimed `max_retries + 1 = 3`. -/
theorem retry_bound_fails_on_blank_text :
    ¬ (((" " : String) ≠ "") →
        (summarize_for_kb_index " " 2 (fun _ => LlmResp.resp 503 "x")).attempts = 2 + 1) := by
  decide

/-- C4 (amended).  For text non-empty after stripping, a first response whose
status is neither 200 nor 429 nor in the 5xx range makes the call fail
immediately: one attempt, no backoff sleep, the HTTP error raised. -/
theorem fatal_status_no_retry (text : String) (maxRetries s : Nat) (b : String)
    (resp : Nat → LlmResp) (h1 : pyStripStr text ≠ "")
    (h2 : resp 0 = LlmResp.resp s b) (h3 : s ≠ 200) (h4 : s ≠ 429)
    (h5 : ¬(500 ≤ s ∧ s < 600)) :
    summarize_for_kb_index text maxRetries resp
      = ⟨Except.error (LlmErr.httpErr s b), 1, []⟩ := by
  unfold summarize_for_kb_index
  rw [if_neg h1]
  show summarizeLoop resp (maxRetries + 1) 0 none = _
  simp only [summarizeLoop, h2]
  rw [if_neg h3, if_neg (show ¬(s = 429 ∨ (500 ≤ s ∧ s < 600)) from fun hc => hc.elim h4 h5)]

/-- Witness for C4 at a concrete 401 response. -/
theorem fatal_status_no_retry_witness :
    summarize_for_kb_index "x" 3 (fun _ => LlmResp.resp 401 "nope")
      = ⟨Except.error (LlmErr.httpErr 401 "nope"), 1, []⟩ :=
  fatal_status_no_retry "x" 3 401 "nope" (fun _ => LlmResp.resp 401 "nope")
    (by decide) rfl (by omega) (by omega) (by omega)

/-- C4 counterexample.  `" "` is a non-empty text input, yet a 401 endpoint
produces 0 attempts and a successful empty result — nothing is raised after
a first response, because no request is ever made. -/
theorem fatal_status_fails_on_blank_text :
    ¬ (((" " : String) ≠ "") →
        (summarize_for_kb_index " " 3 (fun _ => LlmResp.resp 401 "x")).attempts = 1) := by
  decide

/-- C5 (amended).  A prior cache entry is returned untouched; starting from
no entry, a cache entry exists after the fetch exactly when the response was
HTTP 200 with a body no larger than `max_source_bytes` — the body may be
empty — and the entry then holds the decoded body.  Failures, non-200
statuses and oversized bodies never create an entry. -/
theorem cache_entry_iff_200_within_ceiling (t : String) (resp : FetchResp) (maxBytes : Nat) :
    (fetch_url (some t) resp maxBytes).cacheAfter = some t
    ∧ ((fetch_url none resp maxBytes).cacheAfter ≠ none ↔
        ∃ body, resp = FetchResp.ok 200 body ∧ body.length ≤ maxBytes)
    ∧ (∀ body, resp = FetchResp.ok 200 body → body.length ≤ maxBytes →
        (fetch_url none resp maxBytes).cacheAfter = some (decodeReplace body)) := by
  refine ⟨rfl, ?_, ?_⟩
  · cases resp with
    | exn => simp [fetch_url]
    | ok s body =>
      by_cases hs : s = 200
      · subst hs
        by_cases hl : body.length > maxBytes
        · simp [fetch_url, hl]
        · simp [fetch_url, hl]
          omega
      · simp [fetch_url, hs]
  · intro body hresp hlen
    subst hresp
    simp [fetch_url, Nat.not_lt.mpr hlen]

/-- C5 counterexample.  An HTTP 200 response with an empty body creates a
cache entry (holding the empty string), refuting "a cache entry exists only
if the fetch had a non-empty body". -/
theorem cache_entry_created_for_empty_body :
    ¬ ((fetch_url none (FetchResp.ok 200 []) 1000).cacheAfter ≠ none →
        ([] : List Nat) ≠ []) := by
  decide

/-- C8 (amended).  If a cache entry already exists, or the first fetch
succeeds (HTTP 200 within the size ceiling), then fetching the same URL
twice yields identical text with at most one network call, and zero calls
when the entry pre-existed.  (Without that proviso the first failed fetch is
not cached and is retried — see the counterexample.) -/
theorem fetch_twice_idempotent_after_success (cached : Option String)
    (r1 r2 : FetchResp) (maxBytes : Nat)
    (h : cached ≠ none ∨ ∃ body, r1 = FetchResp.ok 200 body ∧ body.length ≤ maxBytes) :
    (fetch_twice cached r1 r2 maxBytes).1.text = (fetch_twice cached r1 r2 maxBytes).2.text
    ∧ callCount (fetch_twice cached r1 r2 maxBytes) ≤ 1
    ∧ (cached ≠ none → callCount (fetch_twice cached r1 r2 maxBytes) = 0) := by
  cases cached with
  | some t => simp [fetch_twice, fetch_url, callCount]
  | none =>
    rcases h with h | ⟨body, rfl, hlen⟩
    · exact absurd rfl h
    · simp [fetch_twice, fetch_url, callCount, Nat.not_lt.mpr hlen]

/-- Witness for C8: a pre-existing cache entry means both fetches return it
with zero network calls. -/
theorem fetch_twice_idempotent_after_success_witness :
    (fetch_twice (some "x") FetchResp.exn FetchResp.exn 5).1.text
        = (fetch_twice (some "x") FetchResp.exn FetchResp.exn 5).2.text
    ∧ callCount (fetch_twice (some "x") FetchResp.exn FetchResp.exn 5) ≤ 1
    ∧ ((some "x" : Option String) ≠ none →
        callCount (fetch_twice (some "x") FetchResp.exn FetchResp.exn 5) = 0) :=
  fetch_twice_idempotent_after_success (some "x") FetchResp.exn FetchResp.exn 5
    (Or.inl (by decide))

/-- C8 counterexample.  A first fetch failing with HTTP 500 is not cached:
the second fetch issues a second network call and (the endpoint now
answering 200 `"h"`) returns different text, so "fetching twice yields
identical text and performs at most one network call" fails. -/
theorem failed_first_fetch_refetches :
    ¬ ((fetch_twice none (FetchResp.ok 500 []) (FetchResp.ok 200 [104]) 10).1.text
          = (fetch_twice none (FetchResp.ok 500 []) (FetchResp.ok 200 [104]) 10).2.text
      ∧ callCount (fetch_twice none (FetchResp.ok 500 []) (FetchResp.ok 200 [104]) 10) ≤ 1) := by
  decide

/-- C10.  A cache hit returns the cached text unconditionally and issues no
network request: the result does not depend on the response oracle or on
`max_source_bytes`, so in particular a cached entry larger than the ceiling
is still returned in full. -/
theorem cache_hit_returns_cached_unconditionally (t : String) (resp : FetchResp)
    (maxBytes : Nat) :
    fetch_url (some t) resp maxBytes = ⟨t, some t, false⟩ :=
  rfl

/-- The file loop summarizes every discovered file (there is no empty-text
skip on the file path). -/
theorem processFiles_calls (read : String → String) (summ : String → String → Except Unit String) :
    ∀ l, (processFiles read summ l).2 = l := by
  intro l
  induction l with
  | nil => rfl
  | cons p rest ih =>
    cases h : summ p (read p) <;> simp [processFiles, h, ih]

/-- The file loop emits, in input order, exactly the rendered entries of the
files whose summarization succeeded. -/
theorem processFiles_entries (read : String → String)
    (summ : String → String → Except Unit String) :
    ∀ l, (processFiles read summ l).1
      = l.filterMap (fun p =>
          match summ p (read p) with
          | Except.ok s => some (p ++ "\n" ++ s)
          | Except.error _ => none) := by
  intro l
  induction l with
  | nil => rfl
  | cons p rest ih =>
    cases h : summ p (read p) <;> simp [processFiles, h, ih, List.filterMap_cons]

/-- Every summarization call made by the URL loop is for a URL whose fetched
text was non-empty. -/
theorem processUrls_calls_ne (fetch : String → String)
    (summ : String → String → Except Unit String) :
    ∀ l u, u ∈ (processUrls fetch summ l).2 → fetch u ≠ "" := by
  intro l
  induction l with
  | nil => intro u hu; cases hu
  | cons v rest ih =>
    intro u hu
    by_cases hv : fetch v = ""
    · rw [processUrls, if_pos hv] at hu
      exact ih u hu
    · rw [processUrls, if_neg hv] at hu
      cases h : summ v (fetch v) <;> rw [h] at hu <;> simp at hu
      · rcases hu with rfl | hu
        · exact hv
        · exact ih u hu
      · rcases hu with rfl | hu
        · exact hv
        · exact ih u hu

/-- Every entry emitted by the URL loop comes from a URL of the input whose
fetched text was non-empty. -/
theorem processUrls_entries_src (fetch : String → String)
    (summ : String → String → Except Unit String) :
    ∀ l e, e ∈ (processUrls fetch summ l).1 →
      ∃ v s, v ∈ l ∧ fetch v ≠ "" ∧ e = v ++ "\n" ++ s := by
  intro l
  induction l with
  | nil => intro e he; cases he
  | cons v rest ih =>
    intro e he
    by_cases hv : fetch v = ""
    · rw [processUrls, if_pos hv] at he
      obtain ⟨w, s, hw, hne, rfl⟩ := ih e he
      exact ⟨w, s, List.mem_cons_of_mem _ hw, hne, rfl⟩
    · rw [processUrls, if_neg hv] at he
      cases h : summ v (fetch v) <;> rw [h] at he <;> simp at he
      · obtain ⟨w, s, hw, hne, rfl⟩ := ih e he
        exact ⟨w, s, List.mem_cons_of_mem _ hw, hne, rfl⟩
      · rcases he with rfl | he
        · exact ⟨v, _, List.mem_cons_self _ _, hv, rfl⟩
        · obtain ⟨w, s, hw, hne, rfl⟩ := ih e he
          exact ⟨w, s, List.mem_cons_of_mem _ hw, hne, rfl⟩

/-- The URL loop emits, in input order, exactly the rendered entries of the
URLs with non-empty fetched text whose summarization succeeded. -/
theorem processUrls_entries_eq (fetch : String → String)
    (summ : String → String → Except Unit String) :
    ∀ l, (processUrls fetch summ l).1
      = l.filterMap (fun u =>
          if fetch u = "" then none
          else
            match summ u (fetch u) with
            | Except.ok s => some (u ++ "\n" ++ s)
            | Except.error _ => none) := by
  intro l
  induction l with
  | nil => rfl
  | cons v rest ih =>
    by_cases hv : fetch v = ""
    · rw [processUrls, if_pos hv, List.filterMap_cons, if_pos hv, ih]
    · cases h : summ v (fetch v) <;>
        simp [processUrls, if_neg hv, h, ih, List.filterMap_cons]

/-- `sortStrings` output is sorted. -/
theorem sortStrings_sorted (l : List String) : List.Sorted (· ≤ ·) (sortStrings l) :=
  List.sorted_insertionSort _ l

/-- Sorting after dedup is invariant under permutation of the discovered
list — the formal content of "set semantics plus lexicographic sort". -/
theorem sortStrings_dedup_perm_eq {l₁ l₂ : List String} (h : List.Perm l₁ l₂) :
    sortStrings l₁.dedup = sortStrings l₂.dedup := by
  apply List.eq_of_perm_of_sorted _ (List.sorted_insertionSort _ _)
    (List.sorted_insertionSort _ _)
  exact ((List.perm_insertionSort _ _).trans h.dedup).trans
    (List.perm_insertionSort _ _).symm

/-- C6 (amended).  A URL whose fetched text is empty is skipped by the URL
loop of `build_index`: no summarization call is made for it, and every
emitted URL entry stems from some URL with non-empty fetched text.  (File
sources have no such skip — see the counterexample.) -/
theorem empty_url_text_skipped (u : String) (urls : List String)
    (fetch : String → String) (summ : String → String → Except Unit String)
    (h : fetch u = "") :
    u ∉ (processUrls fetch summ (sortStrings urls.dedup)).2
    ∧ ∀ e ∈ (processUrls fetch summ (sortStrings urls.dedup)).1,
        ∃ v s, fetch v ≠ "" ∧ e = v ++ "\n" ++ s := by
  constructor
  · intro hm
    exact processUrls_calls_ne fetch summ _ u hm h
  · intro e he
    obtain ⟨v, s, _, hv, rfl⟩ := processUrls_entries_src fetch summ _ e he
    exact ⟨v, s, hv, rfl⟩

/-- Witness for C6 at a concrete one-URL build whose fetch returns "". -/
theorem empty_url_text_skipped_witness :
    "u" ∉ (processUrls (fun _ => "") (fun _ _ => Except.ok "x")
        (sortStrings (["u"] : List String).dedup)).2
    ∧ ∀ e ∈ (processUrls (fun _ => "") (fun _ _ => Except.ok "x")
        (sortStrings (["u"] : List String).dedup)).1,
        ∃ v s, (fun _ => "") v ≠ "" ∧ e = v ++ "\n" ++ s :=
  empty_url_text_skipped "u" ["u"] (fun _ => "") (fun _ _ => Except.ok "x") rfl

/-- C6 counterexample.  A file whose text is empty is NOT skipped: the build
passes it to the summarizer (which returns "" for blank text) and writes an
entry with an empty description, so for file sources the claimed skip does
not exist. -/
theorem empty_file_still_summarized :
    ¬ (("a.txt" ∉ (build_index_core ["a.txt"] [] (fun _ => "") (fun _ => "")
          (fun _ _ => Except.ok "")).calls)
      ∧ (build_index_core ["a.txt"] [] (fun _ => "") (fun _ => "")
          (fun _ _ => Except.ok "")).artifact = "") := by
  decide

/-- `charsLt` is asymmetric. -/
theorem charsLt_asymm : ∀ x y : List Char, charsLt x y = true → charsLt y x = false := by
  intro x
  induction x with
  | nil =>
    intro y h
    cases y with
    | nil => cases h
    | cons b bs => rfl
  | cons a as ih =>
    intro y h
    cases y with
    | nil => cases h
    | cons b bs =>
      by_cases hab : a = b
      · subst hab
        rw [show charsLt (a :: as) (a :: bs) = charsLt as bs by simp [charsLt]] at h
        rw [show charsLt (a :: bs) (a :: as) = charsLt bs as by simp [charsLt]]
        exact ih bs h
      · rw [show charsLt (a :: as) (b :: bs) = decide (a < b) by simp [charsLt, hab]] at h
        rw [show charsLt (b :: bs) (a :: as) = decide (b < a) by
          simp [charsLt, Ne.symm hab]]
        have hlt : a < b := of_decide_eq_true h
        simpa using not_lt_of_lt hlt

/-- Lists unrelated by `charsLt` in either direction are equal. -/
theorem charsLt_conn : ∀ x y : List Char,
    charsLt x y = false → charsLt y x = false → x = y := by
  intro x
  induction x with
  | nil =>
    intro y h _
    cases y with
    | nil => rfl
    | cons b bs => cases h
  | cons a as ih =>
    intro y h h'
    cases y with
    | nil => cases h'
    | cons b bs =>
      by_cases hab : a = b
      · subst hab
        rw [show charsLt (a :: as) (a :: bs) = charsLt as bs by simp [charsLt]] at h
        rw [show charsLt (a :: bs) (a :: as) = charsLt bs as by simp [charsLt]] at h'
        rw [ih bs h h']
      · rw [show charsLt (a :: as) (b :: bs) = decide (a < b) by simp [charsLt, hab]] at h
        rw [show charsLt (b :: bs) (a :: as) = decide (b < a) by
          simp [charsLt, Ne.symm hab]] at h'
        have h1 : ¬ a < b := of_decide_eq_false h
        have h2 : ¬ b < a := of_decide_eq_false h'
        exact absurd (le_antisymm (not_lt.mp h2) (not_lt.mp h1)) hab

/-- `charsLt` is transitive. -/
theorem charsLt_trans : ∀ x y z : List Char,
    charsLt x y = true → charsLt y z = true → charsLt x z = true := by
  intro x
  induction x with
  | nil =>
    intro y z h h'
    cases y with
    | nil => cases h
    | cons b bs =>
      cases z with
      | nil => cases h'
      | cons c cs => rfl
  | cons a as ih =>
    intro y z h h'
    cases y with
    | nil => cases h
    | cons b bs =>
      cases z with
      | nil => cases h'
      | cons c cs =>
        by_cases hab : a = b <;> by_cases hbc : b = c
        · subst hab; subst hbc
          rw [show charsLt (a :: as) (a :: bs) = charsLt as bs by simp [charsLt]] at h
          rw [show charsLt (a :: bs) (a :: cs) = charsLt bs cs by simp [charsLt]] at h'
          rw [show charsLt (a :: as) (a :: cs) = charsLt as cs by simp [charsLt]]
          exact ih bs cs h h'
        · subst hab
          rw [show charsLt (a :: bs) (c :: cs) = decide (a < c) by simp [charsLt, hbc]] at h'
          rw [show charsLt (a :: as) (c :: cs) = decide (a < c) by simp [charsLt, hbc]]
          exact h'
        · subst hbc
          rw [show charsLt (a :: as) (b :: bs) = decide (a < b) by simp [charsLt, hab]] at h
          rw [show charsLt (a :: as) (b :: cs) = decide (a < b) by simp [charsLt, hab]]
          exact h
        · rw [show charsLt (a :: as) (b :: bs) = decide (a < b) by simp [charsLt, hab]] at h
          rw [show charsLt (b :: bs) (c :: cs) = decide (b < c) by simp [charsLt, hbc]] at h'
          have hac : a < c := lt_trans (of_decide_eq_true h) (of_decide_eq_true h')
          have hne : a ≠ c := ne_of_lt hac
          rw [show charsLt (a :: as) (c :: cs) = decide (a < c) by simp [charsLt, hne]]
          simpa using hac

/-- Strings unrelated by `strSegLt` in either direction are equal. -/
theorem strSegLt_conn (a b : String) (h : strSegLt a b = false)
    (h' : strSegLt b a = false) : a = b := by
  have := charsLt_conn a.toList b.toList h h'
  cases a with
  | mk la =>
    cases b with
    | mk lb =>
      simp only [String.toList] at this
      rw [this]

/-- `segsLt` is asymmetric. -/
theorem segsLt_asymm : ∀ x y : List String, segsLt x y = true → segsLt y x = false := by
  intro x
  induction x with
  | nil =>
    intro y h
    cases y with
    | nil => cases h
    | cons b bs => rfl
  | cons a as ih =>
    intro y h
    cases y with
    | nil => cases h
    | cons b bs =>
      by_cases hab : a = b
      · subst hab
        rw [show segsLt (a :: as) (a :: bs) = segsLt as bs by simp [segsLt]] at h
        rw [show segsLt (a :: bs) (a :: as) = segsLt bs as by simp [segsLt]]
        exact ih bs h
      · rw [show segsLt (a :: as) (b :: bs) = strSegLt a b by simp [segsLt, hab]] at h
        rw [show segsLt (b :: bs) (a :: as) = strSegLt b a by simp [segsLt, Ne.symm hab]]
        exact charsLt_asymm a.toList b.toList h

/-- Segment sequences unrelated by `segsLt` in either direction are equal. -/
theorem segsLt_conn : ∀ x y : List String,
    segsLt x y = false → segsLt y x = false → x = y := by
  intro x
  induction x with
  | nil =>
    intro y h _
    cases y with
    | nil => rfl
    | cons b bs => cases h
  | cons a as ih =>
    intro y h h'
    cases y with
    | nil => cases h'
    | cons b bs =>
      by_cases hab : a = b
      · subst hab
        rw [show segsLt (a :: as) (a :: bs) = segsLt as bs by simp [segsLt]] at h
        rw [show segsLt (a :: bs) (a :: as) = segsLt bs as by simp [segsLt]] at h'
        rw [ih bs h h']
      · rw [show segsLt (a :: as) (b :: bs) = strSegLt a b by simp [segsLt, hab]] at h
        rw [show segsLt (b :: bs) (a :: as) = strSegLt b a by simp [segsLt, Ne.symm hab]] at h'
        exact absurd (strSegLt_conn a b h h') hab

/-- `segsLt` is transitive. -/
theorem segsLt_trans : ∀ x y z : List String,
    segsLt x y = true → segsLt y z = true → segsLt x z = true := by
  intro x
  induction x with
  | nil =>
    intro y z h h'
    cases y with
    | nil => cases h
    | cons b bs =>
      cases z with
      | nil => cases h'
      | cons c cs => rfl
  | cons a as ih =>
    intro y z h h'
    cases y with
    | nil => cases h
    | cons b bs =>
      cases z with
      | nil => cases h'
      | cons c cs =>
        by_cases hab : a = b <;> by_cases hbc : b = c
        · subst hab; subst hbc
          rw [show segsLt (a :: as) (a :: bs) = segsLt as bs by simp [segsLt]] at h
          rw [show segsLt (a :: bs) (a :: cs) = segsLt bs cs by simp [segsLt]] at h'
          rw [show segsLt (a :: as) (a :: cs) = segsLt as cs by simp [segsLt]]
          exact ih bs cs h h'
        · subst hab
          rw [show segsLt (a :: bs) (c :: cs) = strSegLt a c by simp [segsLt, hbc]] at h'
          rw [show segsLt (a :: as) (c :: cs) = strSegLt a c by simp [segsLt, hbc]]
          exact h'
        · subst hbc
          rw [show segsLt (a :: as) (b :: bs) = strSegLt a b by simp [segsLt, hab]] at h
          rw [show segsLt (a :: as) (b :: cs) = strSegLt a b by simp [segsLt, hab]]
          exact h
        · rw [show segsLt (a :: as) (b :: bs) = strSegLt a b by simp [segsLt, hab]] at h
          rw [show segsLt (b :: bs) (c :: cs) = strSegLt b c by simp [segsLt, hbc]] at h'
          have hac : strSegLt a c = true := charsLt_trans _ _ _ h h'
          have hne : a ≠ c := by
            intro hcont
            subst hcont
            have hfalse : charsLt a.toList a.toList = false := charsLt_asymm _ _ hac
            have htrue : charsLt a.toList a.toList = true := hac
            rw [hfalse] at htrue
            cases htrue
          rw [show segsLt (a :: as) (c :: cs) = strSegLt a c by simp [segsLt, hne]]
          exact hac

/-- `pathLe` is total. -/
theorem pathLe_total (a b : String) : pathLe a b ∨ pathLe b a := by
  unfold pathLe
  cases hba : segsLt (splitSlash b) (splitSlash a) with
  | false => exact Or.inl rfl
  | true => exact Or.inr (segsLt_asymm _ _ hba)

/-- `pathLe` is transitive. -/
theorem pathLe_trans (a b c : String) (h : pathLe a b) (h' : pathLe b c) : pathLe a c := by
  unfold pathLe at h h' ⊢
  cases hca : segsLt (splitSlash c) (splitSlash a) with
  | false => rfl
  | true =>
    exfalso
    cases hcb : segsLt (splitSlash c) (splitSlash b) with
    | true => rw [hcb] at h'; cases h'
    | false =>
      cases hbc : segsLt (splitSlash b) (splitSlash c) with
      | true =>
        have := segsLt_trans _ _ _ hbc hca
        rw [this] at h
        cases h
      | false =>
        have heq := segsLt_conn _ _ hcb hbc
        rw [← heq] at h
        rw [hca] at h
        cases h

/-- `splitSlashAux` always yields at least one segment. -/
theorem splitSlashAux_cons : ∀ (l cur : List Char), ∃ h t, splitSlashAux l cur = h :: t := by
  intro l
  induction l with
  | nil => intro cur; exact ⟨String.mk cur.reverse, [], rfl⟩
  | cons c rest ih =>
    intro cur
    by_cases hc : c = '/'
    · subst hc
      obtain ⟨h, t, hht⟩ := ih []
      exact ⟨String.mk cur.reverse, splitSlashAux rest [], by simp [splitSlashAux]⟩
    · obtain ⟨h, t, hht⟩ := ih (c :: cur)
      exact ⟨h, t, by rw [show splitSlashAux (c :: rest) cur = splitSlashAux rest (c :: cur)
        by simp [splitSlashAux, hc]]; exact hht⟩

/-- Rejoining the segments of a split restores the characters: the segment
view of a path string is lossless. -/
theorem charJoinSegs_splitSlashAux :
    ∀ (l cur : List Char), charJoinSegs (splitSlashAux l cur) = cur.reverse ++ l := by
  intro l
  induction l with
  | nil =>
    intro cur
    show charJoinSegs [String.mk cur.reverse] = cur.reverse ++ []
    simp [charJoinSegs]
  | cons c rest ih =>
    intro cur
    by_cases hc : c = '/'
    · subst hc
      rw [show splitSlashAux ('/' :: rest) cur = String.mk cur.reverse :: splitSlashAux rest []
        by simp [splitSlashAux]]
      obtain ⟨h, t, hht⟩ := splitSlashAux_cons rest []
      rw [hht]
      rw [show charJoinSegs (String.mk cur.reverse :: h :: t)
          = (String.mk cur.reverse).toList ++ '/' :: charJoinSegs (h :: t) from rfl]
      rw [← hht, ih []]
      simp
    · rw [show splitSlashAux (c :: rest) cur = splitSlashAux rest (c :: cur)
        by simp [splitSlashAux, hc]]
      rw [ih (c :: cur)]
      simp

/-- `splitSlash` is injective. -/
theorem splitSlash_inj (a b : String) (h : splitSlash a = splitSlash b) : a = b := by
  have ha : charJoinSegs (splitSlash a) = a.toList := by
    simpa using charJoinSegs_splitSlashAux a.toList []
  have hb : charJoinSegs (splitSlash b) = b.toList := by
    simpa using charJoinSegs_splitSlashAux b.toList []
  have hab : a.toList = b.toList := by rw [← ha, h, hb]
  cases a with
  | mk la =>
    cases b with
    | mk lb =>
      simp only [String.toList] at hab
      rw [hab]

/-- `pathLe` is antisymmetric. -/
theorem pathLe_antisymm (a b : String) (h : pathLe a b) (h' : pathLe b a) : a = b := by
  unfold pathLe at h h'
  exact splitSlash_inj a b (segsLt_conn _ _ h' h)

/-- `sortPaths` output is sorted in pathlib's path order. -/
theorem sortPaths_sorted (l : List String) : List.Sorted pathLe (sortPaths l) :=
  @List.sorted_insertionSort String pathLe _ ⟨pathLe_total⟩ ⟨pathLe_trans⟩ l

/-- Sorting the deduplicated file set segment-wise is invariant under
permutation of the discovered list. -/
theorem sortPaths_dedup_perm_eq {l₁ l₂ : List String} (h : List.Perm l₁ l₂) :
    sortPaths l₁.dedup = sortPaths l₂.dedup := by
  apply @List.eq_of_perm_of_sorted String pathLe ⟨pathLe_antisymm⟩ _ _
    ?pm (sortPaths_sorted _) (sortPaths_sorted _)
  exact ((List.perm_insertionSort _ _).trans h.dedup).trans
    (List.perm_insertionSort _ _).symm

/-- C9 (amended).  The build is deterministic under permutations of the
discovered file and URL lists (set semantics); the artifact is the
blank-line join of the file entries followed by the URL entries; each group
is produced in order from its sorted source list; and the file list is
sorted in pathlib's segment-wise path order (`pathLe`), the URL list in
plain lexicographic string order.  (The file order is NOT string
lexicographic — see the counterexample.) -/
theorem build_order_sorted_and_deterministic (paths₁ paths₂ urls₁ urls₂ : List String)
    (read fetch : String → String) (summ : String → String → Except Unit String)
    (hp : List.Perm paths₁ paths₂) (hu : List.Perm urls₁ urls₂) :
    build_index_core paths₁ urls₁ read fetch summ
        = build_index_core paths₂ urls₂ read fetch summ
    ∧ (build_index_core paths₁ urls₁ read fetch summ).artifact
        = String.intercalate "\n\n"
            ((processFiles read summ (sortPaths paths₁.dedup)).1
              ++ (processUrls fetch summ (sortStrings urls₁.dedup)).1)
    ∧ (processFiles read summ (sortPaths paths₁.dedup)).1
        = (sortPaths paths₁.dedup).filterMap (fun p =>
            match summ p (read p) with
            | Except.ok s => some (p ++ "\n" ++ s)
            | Except.error _ => none)
    ∧ (processUrls fetch summ (sortStrings urls₁.dedup)).1
        = (sortStrings urls₁.dedup).filterMap (fun u =>
            if fetch u = "" then none
            else
              match summ u (fetch u) with
              | Except.ok s => some (u ++ "\n" ++ s)
              | Except.error _ => none)
    ∧ List.Sorted pathLe (sortPaths paths₁.dedup)
    ∧ List.Sorted (· ≤ ·) (sortStrings urls₁.dedup) := by
  refine ⟨?_, rfl, processFiles_entries read summ _, processUrls_entries_eq fetch summ _,
    sortPaths_sorted _, sortStrings_sorted _⟩
  unfold build_index_core
  rw [sortPaths_dedup_perm_eq hp, sortStrings_dedup_perm_eq hu]

/-- Witness for C9: two discovery orders of the same two files and one URL
give identical builds. -/
theorem build_order_sorted_and_deterministic_witness :
    build_index_core ["b", "a"] ["u"] (fun _ => "t") (fun _ => "w")
          (fun _ _ => Except.ok "s")
        = build_index_core ["a", "b"] ["u"] (fun _ => "t") (fun _ => "w")
          (fun _ _ => Except.ok "s")
    ∧ (build_index_core ["b", "a"] ["u"] (fun _ => "t") (fun _ => "w")
          (fun _ _ => Except.ok "s")).artifact
        = String.intercalate "\n\n"
            ((processFiles (fun _ => "t") (fun _ _ => Except.ok "s")
                (sortPaths (["b", "a"] : List String).dedup)).1
              ++ (processUrls (fun _ => "w") (fun _ _ => Except.ok "s")
                (sortStrings (["u"] : List String).dedup)).1)
    ∧ (processFiles (fun _ => "t") (fun _ _ => Except.ok "s")
          (sortPaths (["b", "a"] : List String).dedup)).1
        = (sortPaths (["b", "a"] : List String).dedup).filterMap (fun p =>
            match (fun _ _ => Except.ok "s" : String → String → Except Unit String)
                p ((fun _ => "t") p) with
            | Except.ok s => some (p ++ "\n" ++ s)
            | Except.error _ => none)
    ∧ (processUrls (fun _ => "w") (fun _ _ => Except.ok "s")
          (sortStrings (["u"] : List String).dedup)).1
        = (sortStrings (["u"] : List String).dedup).filterMap (fun u =>
            if (fun _ => "w") u = "" then none
            else
              match (fun _ _ => Except.ok "s" : String → String → Except Unit String)
                  u ((fun _ => "w") u) with
              | Except.ok s => some (u ++ "\n" ++ s)
              | Except.error _ => none)
    ∧ List.Sorted pathLe (sortPaths (["b", "a"] : List String).dedup)
    ∧ List.Sorted (· ≤ ·) (sortStrings (["u"] : List String).dedup) :=
  build_order_sorted_and_deterministic ["b", "a"] ["a", "b"] ["u"] ["u"]
    (fun _ => "t") (fun _ => "w") (fun _ _ => Except.ok "s")
    (List.Perm.swap _ _ _) (List.Perm.refl _)

/-- C9 counterexample.  With the discovered files `a.txt` and `a/b`,
`sorted(file_sources)` compares `Path` objects segment-wise and puts `a/b`
first, although `a.txt` strictly precedes `a/b` in code-point lexicographic
string order — so "file entries sorted lexicographically by relative path"
is false of the program. -/
theorem build_file_order_not_string_lexicographic :
    (build_index_core ["a.txt", "a/b"] [] (fun _ => "t") (fun _ => "")
        (fun _ _ => Except.ok "s")).artifact = "a/b\ns\n\na.txt\ns"
    ∧ (build_index_core ["a.txt", "a/b"] [] (fun _ => "t") (fun _ => "")
        (fun _ _ => Except.ok "s")).artifact ≠ "a.txt\ns\n\na/b\ns"
    ∧ charsLt ("a.txt" : String).toList ("a/b" : String).toList = true := by
  refine ⟨by decide, by decide, by decide⟩

/-- C7 (amended).  The `community_intern` variant resolves a file identifier
and then fails typed: `notFound` when no file exists at the resolved path,
`invalid` when the content is blank, and it never returns a `SourceContent`
whose text is empty or whitespace-only.  (The `discord_intern` variant does
not satisfy this — see the counterexample.) -/
theorem community_load_typed_errors (fs : List String → Option String)
    (sourcesDir sourceId : String) (fp : List String)
    (h : community_resolve_path sourcesDir sourceId = Except.ok fp) :
    (fs fp = none →
        community_load_source_content fs sourcesDir sourceId
          = Except.error LoadErr.notFound)
    ∧ (∀ t, fs fp = some t → pyStripStr t = "" →
        community_load_source_content fs sourcesDir sourceId
          = Except.error LoadErr.invalid)
    ∧ (∀ r, community_load_source_content fs sourcesDir sourceId = Except.ok r →
        pyStripStr r.text ≠ "") := by
  unfold community_load_source_content
  rw [h]
  dsimp only
  refine ⟨fun hn => by rw [hn], fun t ht hb => by rw [ht]; exact if_pos hb, fun r hr => ?_⟩
  cases hfs : fs fp with
  | none => rw [hfs] at hr; cases hr
  | some t =>
    rw [hfs] at hr
    dsimp only at hr
    by_cases hb : pyStripStr t = ""
    · rw [if_pos hb] at hr; cases hr
    · rw [if_neg hb] at hr
      injection hr with hr
      rw [← hr]
      exact hb

/-- Witness for C7 at a concrete in-bounds identifier over `fsDemo`. -/
theorem community_load_typed_errors_witness :
    (fsDemo ["app", "sources", "notes.txt"] = none →
        community_load_source_content fsDemo "/app/sources" "notes.txt"
          = Except.error LoadErr.notFound)
    ∧ (∀ t, fsDemo ["app", "sources", "notes.txt"] = some t → pyStripStr t = "" →
        community_load_source_content fsDemo "/app/sources" "notes.txt"
          = Except.error LoadErr.invalid)
    ∧ (∀ r, community_load_source_content fsDemo "/app/sources" "notes.txt"
          = Except.ok r → pyStripStr r.text ≠ "") :=
  community_load_typed_errors fsDemo "/app/sources" "notes.txt"
    ["app", "sources", "notes.txt"] (by decide)

/-- C7 counterexample.  The `discord_intern` variant, asked for a file that
does not exist, raises nothing and silently returns a `SourceContent` with
empty text — the behaviour the claim says never happens. -/
theorem discord_missing_file_yields_empty_content :
    discord_load_source_content (fun _ => none) "/app/sources" "missing.txt"
      = ⟨"missing.txt", ""⟩ := by
  decide

/-- Dropping a matched run never lengthens a list. -/
theorem dropWhile_length_le (p : Char → Bool) :
    ∀ l : List Char, (l.dropWhile p).length ≤ l.length := by
  intro l
  induction l with
  | nil => simp
  | cons a t ih =>
    by_cases h : p a
    · rw [List.dropWhile_cons_of_pos h]
      exact Nat.le_succ_of_le ih
    · rw [List.dropWhile_cons_of_neg h]

/-- A `dropWhile` of full length dropped nothing. -/
theorem dropWhile_eq_self_of_length (p : Char → Bool) :
    ∀ l : List Char, (l.dropWhile p).length = l.length → l.dropWhile p = l := by
  intro l
  induction l with
  | nil => simp
  | cons a t _ =>
    intro h
    by_cases hp : p a
    · rw [List.dropWhile_cons_of_pos hp] at h ⊢
      have := dropWhile_length_le p t
      simp at h
      omega
    · rw [List.dropWhile_cons_of_neg hp]

/-- Right-stripping never lengthens a list. -/
theorem dropTrail_length_le (p : Char → Bool) (l : List Char) :
    (dropTrail p l).length ≤ l.length := by
  unfold dropTrail
  rw [List.length_reverse]
  calc (l.reverse.dropWhile p).length ≤ l.reverse.length := dropWhile_length_le p l.reverse
  _ = l.length := List.length_reverse l

/-- A right strip of full length stripped nothing. -/
theorem dropTrail_eq_self_of_length (p : Char → Bool) (l : List Char)
    (h : (dropTrail p l).length = l.length) : dropTrail p l = l := by
  unfold dropTrail at h ⊢
  rw [List.length_reverse] at h
  have h2 : (l.reverse.dropWhile p).length = l.reverse.length := by
    rw [List.length_reverse]; exact h
  rw [dropWhile_eq_self_of_length p l.reverse h2, List.reverse_reverse]

/-- A fixed point of `pyStrip` is a fixed point of both one-sided strips. -/
theorem pyStrip_fix_parts (l : List Char) (h : pyStrip l = l) :
    l.dropWhile wsChar = l ∧ dropTrail wsChar l = l := by
  have hlen1 : (l.dropWhile wsChar).length ≤ l.length := dropWhile_length_le wsChar l
  have hlen2 : (dropTrail wsChar (l.dropWhile wsChar)).length ≤ (l.dropWhile wsChar).length :=
    dropTrail_length_le wsChar _
  have hfull : (dropTrail wsChar (l.dropWhile wsChar)).length = l.length := by
    rw [show dropTrail wsChar (l.dropWhile wsChar) = l from h]
  have hl1 : (l.dropWhile wsChar).length = l.length := by omega
  have hdw : l.dropWhile wsChar = l := dropWhile_eq_self_of_length wsChar l hl1
  refine ⟨hdw, ?_⟩
  have : dropTrail wsChar l = l := by
    have := h
    unfold pyStrip at this
    rw [hdw] at this
    exact this
  exact this

/-- Both one-sided strips fixed makes `pyStrip` fixed. -/
theorem pyStrip_of_parts (l : List Char) (h1 : l.dropWhile wsChar = l)
    (h2 : dropTrail wsChar l = l) : pyStrip l = l := by
  unfold pyStrip
  rw [h1, h2]

/-- The head of a left-strip fixed point is not whitespace. -/
theorem head_not_ws (l : List Char) (a : Char) (t : List Char)
    (h : l.dropWhile wsChar = l) (he : l = a :: t) : wsChar a = false := by
  subst he
  by_cases hp : wsChar a
  · rw [List.dropWhile_cons_of_pos hp] at h
    have := dropWhile_length_le wsChar t
    have hlen := congrArg List.length h
    simp at hlen
    omega
  · simpa using hp

/-- A right-strip fixed point reversed is a left-strip fixed point. -/
theorem dropTrail_fix_rev (p : Char → Bool) (l : List Char) (h : dropTrail p l = l) :
    l.reverse.dropWhile p = l.reverse := by
  have := congrArg List.reverse h
  unfold dropTrail at this
  rwa [List.reverse_reverse] at this

/-- The last character of a nonempty right-strip fixed point is not
whitespace (phrased on the reverse). -/
theorem rev_head_not_ws (l : List Char) (h : dropTrail wsChar l = l) (hne : l ≠ []) :
    ∃ a t, l.reverse = a :: t ∧ wsChar a = false := by
  have hrev : l.reverse ≠ [] := by
    intro hc
    exact hne (by simpa using congrArg List.reverse hc)
  obtain ⟨a, t, he⟩ := List.exists_cons_of_ne_nil hrev
  exact ⟨a, t, he, head_not_ws l.reverse a t (dropTrail_fix_rev wsChar l h) he⟩

/-- If everything survives a `dropWhile` on the left part, the tail of an
append is untouched. -/
theorem dropWhile_append_pos (p : Char → Bool) :
    ∀ x y : List Char, x.dropWhile p ≠ [] → (x ++ y).dropWhile p = x.dropWhile p ++ y := by
  intro x
  induction x with
  | nil => intro y h; exact absurd rfl h
  | cons a t ih =>
    intro y h
    by_cases hp : p a
    · rw [List.dropWhile_cons_of_pos hp] at h
      rw [List.cons_append, List.dropWhile_cons_of_pos hp,
        List.dropWhile_cons_of_pos hp, ih y h]
    · rw [List.cons_append, List.dropWhile_cons_of_neg hp, List.dropWhile_cons_of_neg hp,
        List.cons_append]

/-- A `dropWhile` that empties the list matched every character. -/
theorem dropWhile_nil_forall (p : Char → Bool) :
    ∀ l : List Char, l.dropWhile p = [] → ∀ c ∈ l, p c = true := by
  intro l
  induction l with
  | nil => intro _ c hc; cases hc
  | cons a t ih =>
    intro h c hc
    rw [List.mem_cons] at hc
    by_cases hp : p a
    · rw [List.dropWhile_cons_of_pos hp] at h
      rcases hc with rfl | hc
      · simpa using hp
      · exact ih h c hc
    · rw [List.dropWhile_cons_of_neg hp] at h
      cases h

/-- Right strip distributes over append when the right part survives. -/
theorem dropTrail_append (p : Char → Bool) (x y : List Char)
    (h : dropTrail p y ≠ []) : dropTrail p (x ++ y) = x ++ dropTrail p y := by
  have hy : y.reverse.dropWhile p ≠ [] := by
    intro hc
    apply h
    unfold dropTrail
    rw [hc]
    rfl
  unfold dropTrail
  rw [List.reverse_append, dropWhile_append_pos p y.reverse x.reverse hy,
    List.reverse_append, List.reverse_reverse]

/-- A list starting with an unmatched character survives a right strip. -/
theorem dropTrail_cons_ne (p : Char → Bool) (a : Char) (l : List Char)
    (h : p a = false) : dropTrail p (a :: l) ≠ [] := by
  intro hc
  unfold dropTrail at hc
  have hrev : (a :: l).reverse.dropWhile p = [] := by
    have := congrArg List.reverse hc
    simpa using this
  have ha : p a = true :=
    dropWhile_nil_forall p (a :: l).reverse hrev a (by simp)
  rw [h] at ha
  cases ha

/-- Right-stripping a single trailing newline from a right-stripped list. -/
theorem dropTrail_snoc_nl (i : List Char) (h : dropTrail wsChar i = i) :
    dropTrail wsChar (i ++ ['\n']) = i := by
  unfold dropTrail
  rw [List.reverse_append]
  show (('\n' :: i.reverse).dropWhile wsChar).reverse = i
  rw [List.dropWhile_cons_of_pos (by decide : wsChar '\n' = true),
    dropTrail_fix_rev wsChar i h, List.reverse_reverse]

/-- `pyStrip` absorbs a leading newline. -/
theorem pyStrip_cons_nl (l : List Char) : pyStrip ('\n' :: l) = pyStrip l := by
  unfold pyStrip
  rw [List.dropWhile_cons_of_pos (by decide : wsChar '\n' = true)]

/-- A non-newline head cannot start a blank-line separator. -/
theorem hasNN_cons_ne (a : Char) (l : List Char) (h : a ≠ '\n') :
    hasNN (a :: l) = hasNN l := by
  cases l with
  | nil => rfl
  | cons b t =>
    show ((a == '\n' && b == '\n') || hasNN (b :: t)) = hasNN (b :: t)
    have : (a == '\n') = false := by simpa using h
    rw [this]
    rfl

/-- A leading newline not followed by a newline contributes no separator. -/
theorem hasNN_cons_nl (l : List Char) (h : l.head? ≠ some '\n') :
    hasNN ('\n' :: l) = hasNN l := by
  cases l with
  | nil => rfl
  | cons b t =>
    show ((('\n' : Char) == '\n' && b == '\n') || hasNN (b :: t)) = hasNN (b :: t)
    have hb : b ≠ '\n' := by
      intro hc
      exact h (by rw [hc]; rfl)
    have : (b == '\n') = false := by simpa using hb
    rw [this]
    simp

/-- A list without newlines has no blank-line separator. -/
theorem hasNN_of_no_nl (l : List Char) (h : '\n' ∉ l) : hasNN l = false := by
  induction l with
  | nil => rfl
  | cons a t ih =>
    have ha : a ≠ '\n' := by
      intro hc
      exact h (hc ▸ List.mem_cons_self a t)
    rw [hasNN_cons_ne a t ha]
    exact ih fun hc => h (List.mem_cons_of_mem a hc)

/-- The head of an append is the head of a nonempty left part. -/
theorem head?_append_left (x y : List Char) (h : x ≠ []) : (x ++ y).head? = x.head? := by
  cases x with
  | nil => exact absurd rfl h
  | cons a t => rfl

/-- The head of a nonempty `pyStrip` fixed point is not whitespace. -/
theorem strip_head_not_ws (l : List Char) (a : Char) (t : List Char)
    (h : pyStrip l = l) (he : l = a :: t) : wsChar a = false :=
  head_not_ws l a t (pyStrip_fix_parts l h).1 he

/-- The last character of a nonempty `pyStrip` fixed point is not whitespace
(phrased on the reverse). -/
theorem strip_rev_head_not_ws (l : List Char) (h : pyStrip l = l) (hne : l ≠ []) :
    ∃ a t, l.reverse = a :: t ∧ wsChar a = false :=
  rev_head_not_ws l (pyStrip_fix_parts l h).2 hne

/-- A rendered entry `id ++ '\n' :: desc` contains no blank-line separator
when the identifier has no newline and the description is a good one. -/
theorem chunk_hasNN (i d : List Char) (hi : '\n' ∉ i) (hd : hasNN d = false)
    (hhd : d.head? ≠ some '\n') : hasNN (i ++ '\n' :: d) = false := by
  induction i with
  | nil =>
    show hasNN ('\n' :: d) = false
    rw [hasNN_cons_nl d hhd]
    exact hd
  | cons a t ih =>
    have ha : a ≠ '\n' := fun hc => hi (hc ▸ List.mem_cons_self a t)
    show hasNN (a :: (t ++ '\n' :: d)) = false
    rw [hasNN_cons_ne a _ ha]
    exact ih fun hc => hi (List.mem_cons_of_mem a hc)

/-- Reverse-head of a rendered entry with nonempty description. -/
theorem chunk_rev_head (i d : List Char) (hd : d ≠ []) :
    (i ++ '\n' :: d).reverse.head? = d.reverse.head? := by
  rw [List.reverse_append, List.reverse_cons]
  rw [List.append_assoc]
  exact head?_append_left d.reverse _ (by simpa using hd)

/-- The reverse of a newline-free list does not start with a newline. -/
theorem rev_head_ne_nl_of_no_nl (l : List Char) (h : '\n' ∉ l) :
    l.reverse.head? ≠ some '\n' := by
  cases hr : l.reverse with
  | nil => simp
  | cons a t =>
    intro hc
    have ha : a = '\n' := by simpa using hc
    have : a ∈ l.reverse := hr ▸ List.mem_cons_self a t
    rw [List.mem_reverse] at this
    exact h (ha ▸ this)

/-- The reverse of a nonempty right-stripped list does not start with a
newline. -/
theorem rev_head_ne_nl_of_strip (l : List Char) (h : pyStrip l = l) (hne : l ≠ []) :
    l.reverse.head? ≠ some '\n' := by
  obtain ⟨a, t, he, ha⟩ := strip_rev_head_not_ws l h hne
  rw [he]
  intro hc
  have : a = '\n' := by simpa using hc
  rw [this] at ha
  cases ha

/-- `splitNN` never returns an empty chunk list (Python `split` always
yields at least one piece). -/
theorem splitNN_ne_nil (l : List Char) : splitNN l ≠ [] := by
  match l with
  | [] => simp [splitNN]
  | [c] => simp [splitNN]
  | c :: d :: rest =>
    by_cases h : c = '\n' ∧ d = '\n'
    · simp [splitNN, h]
    · simp only [splitNN, if_neg h]
      cases hs : splitNN (d :: rest) <;> simp

/-- `splitNl` never returns an empty line list. -/
theorem splitNl_ne_nil (l : List Char) : splitNl l ≠ [] := by
  match l with
  | [] => simp [splitNl]
  | c :: rest =>
    by_cases h : c = '\n'
    · simp [splitNl, h]
    · simp only [splitNl, if_neg h]
      cases hs : splitNl rest <;> simp

/-- A chunk free of blank-line separators is returned whole by `splitNN`. -/
theorem splitNN_of_no_sep (l : List Char) (h : hasNN l = false) : splitNN l = [l] := by
  induction l with
  | nil => rfl
  | cons c t ih =>
    cases t with
    | nil => rfl
    | cons d t' =>
      by_cases hcd : c = '\n' ∧ d = '\n'
      · rw [hcd.1, hcd.2] at h
        simp [hasNN] at h
      · cases hb : hasNN (d :: t') with
        | true =>
          rw [show hasNN (c :: d :: t') = ((c == '\n' && d == '\n') || hasNN (d :: t'))
            from rfl, hb] at h
          simp at h
        | false =>
          show splitNN (c :: d :: t') = [c :: d :: t']
          simp only [splitNN, if_neg hcd]
          rw [ih hb]

/-- The left-to-right scan of `splitNN` cuts at the first blank-line
separator: a separator-free chunk not ending in a newline is split off
whole. -/
theorem splitNN_append_sep (r : List Char) :
    ∀ l : List Char, hasNN l = false → l.reverse.head? ≠ some '\n' →
      splitNN (l ++ '\n' :: '\n' :: r) = l :: splitNN r := by
  intro l
  induction l with
  | nil =>
    intro _ _
    show splitNN ('\n' :: '\n' :: r) = [] :: splitNN r
    simp [splitNN]
  | cons c t ih =>
    intro h1 h2
    cases t with
    | nil =>
      have hc : c ≠ '\n' := by
        intro hc
        apply h2
        rw [hc]
        rfl
      show splitNN (c :: '\n' :: '\n' :: r) = [c] :: splitNN r
      simp only [splitNN]
      rw [if_neg (by simp [hc])]
      simp
    | cons d t' =>
      by_cases hcd : c = '\n' ∧ d = '\n'
      · rw [hcd.1, hcd.2] at h1
        simp [hasNN] at h1
      · cases hb : hasNN (d :: t') with
        | true =>
          rw [show hasNN (c :: d :: t') = ((c == '\n' && d == '\n') || hasNN (d :: t'))
            from rfl, hb] at h1
          simp at h1
        | false =>
          have h2' : (d :: t').reverse.head? ≠ some '\n' := by
            have hrw : (c :: d :: t').reverse = (d :: t').reverse ++ [c] := by
              simp
            rw [hrw, head?_append_left _ _ (by simp)] at h2
            exact h2
          show splitNN (c :: (d :: t') ++ '\n' :: '\n' :: r) = (c :: d :: t') :: splitNN r
          rw [List.cons_append]
          simp only [splitNN]
          rw [if_neg hcd]
          rw [show splitNN (d :: List.append t' ('\n' :: '\n' :: r))
            = (d :: t') :: splitNN r from ih hb h2']

/-- Prepending a newline to text not starting with a newline prepends the
newline to the first chunk of the split. -/
theorem splitNN_cons_nl (x : List Char) (h : x.head? ≠ some '\n') :
    ∃ hd tl, splitNN x = hd :: tl ∧ splitNN ('\n' :: x) = ('\n' :: hd) :: tl := by
  cases x with
  | nil => exact ⟨[], [], by simp [splitNN], by simp [splitNN]⟩
  | cons c t =>
    have hc : c ≠ '\n' := by
      intro hc
      apply h
      rw [hc]
      rfl
    obtain ⟨hd, tl, hs⟩ : ∃ hd tl, splitNN (c :: t) = hd :: tl := by
      cases hsp : splitNN (c :: t) with
      | nil => exact absurd hsp (splitNN_ne_nil _)
      | cons a b => exact ⟨a, b, rfl⟩
    refine ⟨hd, tl, hs, ?_⟩
    show splitNN ('\n' :: c :: t) = ('\n' :: hd) :: tl
    simp only [splitNN]
    rw [if_neg (by simp [hc]), hs]

/-- Splitting on single newlines cuts exactly at the identifier boundary of
a rendered entry. -/
theorem splitNl_append (d : List Char) :
    ∀ i : List Char, '\n' ∉ i → splitNl (i ++ '\n' :: d) = i :: splitNl d := by
  intro i
  induction i with
  | nil =>
    intro _
    show splitNl ('\n' :: d) = [] :: splitNl d
    simp [splitNl]
  | cons c t ih =>
    intro h
    have hc : c ≠ '\n' := fun hc => h (hc ▸ List.mem_cons_self c t)
    show splitNl (c :: (t ++ '\n' :: d)) = (c :: t) :: splitNl d
    simp only [splitNl]
    rw [if_neg hc, ih (fun hm => h (List.mem_cons_of_mem c hm))]

/-- A newline-free list is one single line. -/
theorem splitNl_of_no_nl (i : List Char) (h : '\n' ∉ i) : splitNl i = [i] := by
  induction i with
  | nil => rfl
  | cons c t ih =>
    have hc : c ≠ '\n' := fun hc => h (hc ▸ List.mem_cons_self c t)
    show splitNl (c :: t) = [c :: t]
    simp only [splitNl]
    rw [if_neg hc, ih (fun hm => h (List.mem_cons_of_mem c hm))]

/-- Rejoining the lines of a newline split restores the original text. -/
theorem joinNl_splitNl : ∀ l : List Char, joinNl (splitNl l) = l := by
  intro l
  induction l with
  | nil => rfl
  | cons c t ih =>
    obtain ⟨a, b, hab⟩ : ∃ a b, splitNl t = a :: b := by
      cases hsp : splitNl t with
      | nil => exact absurd hsp (splitNl_ne_nil t)
      | cons a b => exact ⟨a, b, rfl⟩
    by_cases hc : c = '\n'
    · subst hc
      have h1 : splitNl ('\n' :: t) = [] :: splitNl t := by simp [splitNl]
      rw [h1, hab]
      show joinNl ([] :: a :: b) = '\n' :: t
      rw [show joinNl ([] :: a :: b) = [] ++ '\n' :: joinNl (a :: b) from rfl]
      rw [← hab, ih]
      rfl
    · have h1 : splitNl (c :: t) = (c :: a) :: b := by
        simp only [splitNl]
        rw [if_neg hc, hab]
      rw [h1]
      cases b with
      | nil =>
        rw [hab] at ih
        show joinNl [c :: a] = c :: t
        rw [show joinNl [c :: a] = c :: a from rfl]
        rw [show joinNl [a] = a from rfl] at ih
        rw [ih]
      | cons b1 b2 =>
        rw [hab] at ih
        show joinNl ((c :: a) :: b1 :: b2) = c :: t
        rw [show joinNl ((c :: a) :: b1 :: b2) = (c :: a) ++ '\n' :: joinNl (b1 :: b2)
          from rfl]
        rw [show joinNl (a :: b1 :: b2) = a ++ '\n' :: joinNl (b1 :: b2) from rfl] at ih
        rw [show (c :: a) ++ '\n' :: joinNl (b1 :: b2)
          = c :: (a ++ '\n' :: joinNl (b1 :: b2)) from rfl, ih]

/-- `parseChunk` ignores a stray leading newline (the chunk-level strip
removes it). -/
theorem parseChunk_cons_nl (l : List Char) : parseChunk ('\n' :: l) = parseChunk l := by
  unfold parseChunk
  rw [pyStrip_cons_nl]

/-- A leading newline survives a right strip when a stripped nonempty list
follows it. -/
theorem dropTrail_nl_cons (d : List Char) (hd : pyStrip d = d) (hne : d ≠ []) :
    dropTrail wsChar ('\n' :: d) = '\n' :: d := by
  obtain ⟨a, t, he, ha⟩ := strip_rev_head_not_ws d hd hne
  unfold dropTrail
  rw [List.reverse_cons, he, List.cons_append,
    List.dropWhile_cons_of_neg (by simp [ha])]
  rw [← List.cons_append, ← he, List.reverse_append]
  simp

/-- A rendered entry with stripped nonempty description is a right-strip
fixed point. -/
theorem chunk_dropTrail (i d : List Char) (hd_strip : pyStrip d = d) (hd_ne : d ≠ []) :
    dropTrail wsChar (i ++ '\n' :: d) = i ++ '\n' :: d := by
  have h2 := dropTrail_nl_cons d hd_strip hd_ne
  rw [dropTrail_append wsChar i ('\n' :: d) (by rw [h2]; simp), h2]

/-- Parsing a bare identifier chunk (the shape left by the whole-text strip
when the last description is empty). -/
theorem parseChunk_bare_id (i : List Char) (_hne : i ≠ []) (hstrip : pyStrip i = i)
    (hnl : '\n' ∉ i) : parseChunk i = (i, []) := by
  unfold parseChunk
  rw [hstrip, splitNl_of_no_nl i hnl]
  dsimp only
  rw [hstrip]
  rfl

/-- Parsing a full rendered entry recovers the pair. -/
theorem parseChunk_full (i d : List Char) (hi_ne : i ≠ []) (hi_strip : pyStrip i = i)
    (hi_nl : '\n' ∉ i) (hd_strip : pyStrip d = d) (hd_ne : d ≠ []) :
    parseChunk (i ++ '\n' :: d) = (i, d) := by
  have hps : pyStrip (i ++ '\n' :: d) = i ++ '\n' :: d := by
    apply pyStrip_of_parts
    · obtain ⟨a, t, he⟩ := List.exists_cons_of_ne_nil hi_ne
      rw [he, List.cons_append,
        List.dropWhile_cons_of_neg (by simp [strip_head_not_ws i a t hi_strip he])]
    · exact chunk_dropTrail i d hd_strip hd_ne
  unfold parseChunk
  rw [hps, splitNl_append d i hi_nl]
  dsimp only
  rw [hi_strip, joinNl_splitNl d, hd_strip]

/-- A stripped nonempty description does not start with a newline. -/
theorem desc_head_ne_nl (d : List Char) (hstrip : pyStrip d = d) (hne : d ≠ []) :
    d.head? ≠ some '\n' := by
  obtain ⟨c, t, he⟩ := List.exists_cons_of_ne_nil hne
  have hc := strip_head_not_ws d c t hstrip he
  rw [he]
  intro hcont
  have : c = '\n' := by simpa using hcont
  rw [this] at hc
  cases hc

/-- `joinNN` of a cons starts with its first part. -/
theorem joinNN_cons (x : List Char) (xs : List (List Char)) :
    ∃ z, joinNN (x :: xs) = x ++ z := by
  cases xs with
  | nil => exact ⟨[], by simp [joinNN]⟩
  | cons y ys => exact ⟨'\n' :: '\n' :: joinNN (y :: ys), rfl⟩

/-- The whole-text right strip only touches the last rendered entry: with at
least two entries it distributes past the first chunk and its separator. -/
theorem strippedJoin_cons (e f : List Char × List Char) (rs : List (List Char × List Char))
    (hf_ne : f.1 ≠ []) (hf_strip : pyStrip f.1 = f.1) :
    strippedJoin (e :: f :: rs)
      = chunkOfEntry e ++ '\n' :: '\n' :: strippedJoin (f :: rs) := by
  unfold strippedJoin
  rw [List.map_cons]
  rw [show joinNN (chunkOfEntry e :: List.map chunkOfEntry (f :: rs))
      = chunkOfEntry e ++ '\n' :: '\n' :: joinNN (List.map chunkOfEntry (f :: rs)) by
    rw [List.map_cons]
    rfl]
  obtain ⟨z, hz⟩ := joinNN_cons (chunkOfEntry f) (List.map chunkOfEntry rs)
  have hJ : dropTrail wsChar (joinNN (List.map chunkOfEntry (f :: rs))) ≠ [] := by
    rw [List.map_cons, hz]
    obtain ⟨a, t, he⟩ := List.exists_cons_of_ne_nil hf_ne
    have ha := strip_head_not_ws f.1 a t hf_strip he
    rw [show chunkOfEntry f ++ z = a :: (t ++ '\n' :: f.2 ++ z) by
      rw [chunkOfEntry, he]
      simp]
    exact dropTrail_cons_ne wsChar a _ ha
  rw [show chunkOfEntry e ++ '\n' :: '\n' :: joinNN (List.map chunkOfEntry (f :: rs))
      = (chunkOfEntry e ++ ['\n', '\n']) ++ joinNN (List.map chunkOfEntry (f :: rs)) by
    simp]
  rw [dropTrail_append wsChar _ _ hJ]
  simp

/-- Core of the round-trip proof: for good entries the stripped serialized
text starts with a non-whitespace character, and splitting it on blank lines
and parsing each chunk recovers the entries. -/
theorem roundtrip_aux :
    ∀ es : List (List Char × List Char), (∀ e ∈ es, goodEntry e) → es ≠ [] →
      (∃ a t, strippedJoin es = a :: t ∧ wsChar a = false)
      ∧ (splitNN (strippedJoin es)).map parseChunk = es := by
  intro es
  induction es with
  | nil => intro _ hne; exact absurd rfl hne
  | cons e rest ih =>
    intro hgood _
    obtain ⟨h1, h2, h3, h4, h5⟩ := hgood e (List.mem_cons_self e rest)
    obtain ⟨a, t, hea⟩ := List.exists_cons_of_ne_nil h1
    have ha : wsChar a = false := strip_head_not_ws e.1 a t h2 hea
    cases rest with
    | nil =>
      by_cases hd : e.2 = []
      · have hsj : strippedJoin [e] = e.1 := by
          show dropTrail wsChar (joinNN [chunkOfEntry e]) = e.1
          rw [show joinNN [chunkOfEntry e] = chunkOfEntry e from rfl]
          rw [show chunkOfEntry e = e.1 ++ ['\n'] by rw [chunkOfEntry, hd]]
          exact dropTrail_snoc_nl e.1 (pyStrip_fix_parts e.1 h2).2
        refine ⟨⟨a, t, by rw [hsj, hea], ha⟩, ?_⟩
        rw [hsj, splitNN_of_no_sep e.1 (hasNN_of_no_nl e.1 h3), List.map_cons,
          parseChunk_bare_id e.1 h1 h2 h3]
        rw [show ((e.1, []) : List Char × List Char) = e by rw [← hd]]
        rfl
      · have hsj : strippedJoin [e] = chunkOfEntry e := by
          show dropTrail wsChar (joinNN [chunkOfEntry e]) = chunkOfEntry e
          rw [show joinNN [chunkOfEntry e] = chunkOfEntry e from rfl]
          exact chunk_dropTrail e.1 e.2 h4 hd
        refine ⟨⟨a, t ++ '\n' :: e.2, by rw [hsj, chunkOfEntry, hea]; rfl, ha⟩, ?_⟩
        have hnn : hasNN (chunkOfEntry e) = false :=
          chunk_hasNN e.1 e.2 h3 h5 (desc_head_ne_nl e.2 h4 hd)
        rw [hsj, splitNN_of_no_sep _ hnn, List.map_cons, chunkOfEntry,
          parseChunk_full e.1 e.2 h1 h2 h3 h4 hd]
        rfl
    | cons f rs =>
      obtain ⟨hf1, hf2, _, _, _⟩ := hgood f (List.mem_cons_of_mem e (List.mem_cons_self f rs))
      have hrest_good : ∀ x ∈ f :: rs, goodEntry x := fun x hx =>
        hgood x (List.mem_cons_of_mem e hx)
      obtain ⟨⟨b, u, hb, hbws⟩, hmap⟩ := ih hrest_good (by simp)
      have hsj := strippedJoin_cons e f rs hf1 hf2
      by_cases hd : e.2 = []
      · have hshape : chunkOfEntry e ++ '\n' :: '\n' :: strippedJoin (f :: rs)
            = e.1 ++ '\n' :: '\n' :: ('\n' :: strippedJoin (f :: rs)) := by
          rw [chunkOfEntry, hd]
          simp
        rw [hsj, hshape]
        constructor
        · refine ⟨a, t ++ '\n' :: '\n' :: ('\n' :: strippedJoin (f :: rs)), ?_, ha⟩
          rw [hea]
          rfl
        · rw [splitNN_append_sep ('\n' :: strippedJoin (f :: rs)) e.1
            (hasNN_of_no_nl e.1 h3) (rev_head_ne_nl_of_no_nl e.1 h3)]
          rw [List.map_cons, parseChunk_bare_id e.1 h1 h2 h3]
          have hX : (strippedJoin (f :: rs)).head? ≠ some '\n' := by
            rw [hb]
            intro hc
            have : b = '\n' := by simpa using hc
            rw [this] at hbws
            cases hbws
          obtain ⟨hd0, tl0, hs0, hs1⟩ := splitNN_cons_nl (strippedJoin (f :: rs)) hX
          rw [hs1, List.map_cons, parseChunk_cons_nl]
          have hrec : parseChunk hd0 :: List.map parseChunk tl0 = f :: rs := by
            rw [← List.map_cons, ← hs0]
            exact hmap
          rw [hrec, show ((e.1, []) : List Char × List Char) = e by rw [← hd]]
      · have hnn : hasNN (chunkOfEntry e) = false :=
          chunk_hasNN e.1 e.2 h3 h5 (desc_head_ne_nl e.2 h4 hd)
        have hrev : (chunkOfEntry e).reverse.head? ≠ some '\n' := by
          rw [chunkOfEntry, chunk_rev_head e.1 e.2 hd]
          exact rev_head_ne_nl_of_strip e.2 h4 hd
        rw [hsj]
        constructor
        · refine ⟨a, t ++ '\n' :: e.2 ++ '\n' :: '\n' :: strippedJoin (f :: rs), ?_, ha⟩
          rw [chunkOfEntry, hea]
          simp
        · rw [splitNN_append_sep (strippedJoin (f :: rs)) (chunkOfEntry e) hnn hrev]
          rw [List.map_cons, chunkOfEntry, parseChunk_full e.1 e.2 h1 h2 h3 h4 hd, hmap]

/-- C2 (amended).  For entries whose identifiers are nonempty, newline-free
and strip-fixed, and whose descriptions are strip-fixed and contain no
blank line, serializing with the build's join logic and parsing with
`load_index_entries` reproduces the same pairs in the same order. -/
theorem roundtrip_holds_for_trimmed_entries (es : List (List Char × List Char))
    (h : ∀ e ∈ es, goodEntry e) :
    load_index_entries (serialize_entries es) = es := by
  cases es with
  | nil => rfl
  | cons e rest =>
    obtain ⟨h1, h2, _, _, _⟩ := h e (List.mem_cons_self e rest)
    obtain ⟨a, t, hea⟩ := List.exists_cons_of_ne_nil h1
    have ha := strip_head_not_ws e.1 a t h2 hea
    obtain ⟨z, hz⟩ := joinNN_cons (chunkOfEntry e) (List.map chunkOfEntry rest)
    have htext : joinNN (List.map chunkOfEntry (e :: rest))
        = a :: (t ++ '\n' :: e.2 ++ z) := by
      rw [List.map_cons, hz, chunkOfEntry, hea]
      simp
    have hne_text : serialize_entries (e :: rest) ≠ [] := by
      rw [serialize_entries, htext]
      simp
    unfold load_index_entries
    rw [if_neg hne_text]
    have hstrip : pyStrip (serialize_entries (e :: rest)) = strippedJoin (e :: rest) := by
      unfold pyStrip strippedJoin serialize_entries
      rw [show (joinNN (List.map chunkOfEntry (e :: rest))).dropWhile wsChar
          = joinNN (List.map chunkOfEntry (e :: rest)) by
        rw [htext]
        exact List.dropWhile_cons_of_neg (by simp [ha])]
    rw [hstrip]
    exact (roundtrip_aux (e :: rest) h (by simp)).2

/-- Witness for C2 at the single good entry `("a", "b")`. -/
theorem roundtrip_holds_for_trimmed_entries_witness :
    load_index_entries (serialize_entries [(['a'], ['b'])]) = [(['a'], ['b'])] :=
  roundtrip_holds_for_trimmed_entries [(['a'], ['b'])] (by decide)

/-- C2 counterexample.  The description `"b "` contains no blank line, yet
the round trip returns `("a", "b")` — the parser strips each field, so the
claim as stated (for arbitrary blank-line-free descriptions) fails. -/
theorem roundtrip_fails_on_untrimmed_description :
    load_index_entries (serialize_entries [(['a'], ['b', ' '])]) ≠ [(['a'], ['b', ' '])] := by
  decide
